import Mathlib

/-!
Verification of the code-challenge repository against its specification.

Part 1 embeds src/problem4/sum_to_n.ts: three implementations of the sum
1 + 2 + ... + n over exact integer arithmetic.

Part 2 embeds the pagination branch of
src/problem5/src/services/user.service.ts (UserService.getAllUsers).

Part 3 models the real-time leaderboard engine of the scoreboard design
document (Problem 6).  That design document contains no executable engine,
only contracts and pseudocode, so the engine definitions are modelled from
the specification text and are marked as such.
-/

/-- Running sum of the iterative loop in sum_to_n_a after k iterations:
iteration j adds the loop counter j to the accumulator, so the final
iteration adds k. -/
def sumLoop : Nat → Int
  | 0 => 0
  | k + 1 => sumLoop k + (k + 1)

/-- Embedding of sum_to_n_a: a for-loop from i = 1 while i ≤ n accumulating
into sum.  For n ≤ 0 the loop body never executes and the result is 0. -/
def sum_to_n_a (n : Int) : Int := sumLoop n.toNat

/-- Embedding of sum_to_n_b: the closed formula n * (n + 1) / 2.  The
JavaScript division is exact here because n * (n + 1) is even and
non-negative for every integer n. -/
def sum_to_n_b (n : Int) : Int := n * (n + 1) / 2

/-- Embedding of sum_to_n_c: recursion with base case n ≤ 1 returning n,
otherwise n + sum_to_n_c (n - 1). -/
def sum_to_n_c (n : Int) : Int :=
  if n ≤ 1 then n else n + sum_to_n_c (n - 1)
termination_by (n - 1).toNat
decreasing_by omega

/-- Fuel-bounded variant of sum_to_n_c, used to state that the recursion
terminates: with enough fuel it returns some value on every integer. -/
def sumFuel : Nat → Int → Option Int
  | 0, _ => none
  | fuel + 1, n =>
    if n ≤ 1 then some n else (sumFuel fuel (n - 1)).map (fun s => n + s)

theorem two_mul_sumLoop (k : Nat) : 2 * sumLoop k = k * (k + 1) := by
  induction k with
  | zero => simp [sumLoop]
  | succ k ih =>
    have h : sumLoop (k + 1) = sumLoop k + (k + 1) := rfl
    rw [h]
    push_cast
    push_cast at ih
    linear_combination ih

theorem sum_to_n_c_eq_sumLoop (k : Nat) : sum_to_n_c (k : Int) = sumLoop k := by
  induction k with
  | zero => rw [sum_to_n_c]; norm_num [sumLoop]
  | succ k ih =>
    rcases Nat.eq_zero_or_pos k with h | h
    · subst h
      rw [sum_to_n_c]
      norm_num [sumLoop]
    · have hgt : ¬ (((k + 1 : Nat) : Int) ≤ 1) := by omega
      rw [sum_to_n_c, if_neg hgt]
      have hsimp : ((k + 1 : Nat) : Int) - 1 = (k : Int) := by push_cast; ring
      rw [hsimp, ih]
      show (((k + 1 : Nat) : Int)) + sumLoop k = sumLoop k + ((k : Int) + 1)
      push_cast
      ring

theorem two_mul_sum_to_n_c (n : Int) (hn : 0 ≤ n) :
    2 * sum_to_n_c n = n * (n + 1) := by
  have hcast : ((n.toNat : Int)) = n := Int.toNat_of_nonneg hn
  calc 2 * sum_to_n_c n = 2 * sum_to_n_c (n.toNat : Int) := by rw [hcast]
    _ = 2 * sumLoop n.toNat := by rw [sum_to_n_c_eq_sumLoop]
    _ = (n.toNat : Int) * ((n.toNat : Int) + 1) := by
        have := two_mul_sumLoop n.toNat
        exact_mod_cast this
    _ = n * (n + 1) := by rw [hcast]

/-- C8: for every n ≥ 0 the three implementations agree with each other and
with n * (n + 1) / 2; for negative n the iterative version returns 0, the
formula returns n * (n + 1) / 2, and the recursive version returns n. -/
theorem C8_sum_to_n_agree (n : Int) :
    (0 ≤ n → sum_to_n_a n = sum_to_n_b n ∧ sum_to_n_b n = sum_to_n_c n ∧
      sum_to_n_c n = n * (n + 1) / 2) ∧
    (n < 0 → sum_to_n_a n = 0 ∧ sum_to_n_b n = n * (n + 1) / 2 ∧
      sum_to_n_c n = n) := by
  constructor
  · intro hn
    have ha : 2 * sum_to_n_a n = n * (n + 1) := by
      have h := two_mul_sumLoop n.toNat
      have hcast : ((n.toNat : Int)) = n := Int.toNat_of_nonneg hn
      unfold sum_to_n_a
      rw [← hcast]
      exact_mod_cast h
    have hc : 2 * sum_to_n_c n = n * (n + 1) := two_mul_sum_to_n_c n hn
    have hb : sum_to_n_b n = n * (n + 1) / 2 := rfl
    refine ⟨?_, ?_, ?_⟩
    · rw [hb]; omega
    · rw [hb]; omega
    · omega
  · intro hn
    refine ⟨?_, rfl, ?_⟩
    · unfold sum_to_n_a
      have h0 : n.toNat = 0 := by omega
      rw [h0]; rfl
    · rw [sum_to_n_c, if_pos (by omega)]

/-- Closed instance of C8 at n = 5 and n = -3, discharging both
hypotheses concretely. -/
theorem C8_sum_to_n_agree_witness :
    (sum_to_n_a 5 = sum_to_n_b 5 ∧ sum_to_n_b 5 = sum_to_n_c 5 ∧
      sum_to_n_c 5 = 5 * (5 + 1) / 2) ∧
    (sum_to_n_a (-3) = 0 ∧ sum_to_n_b (-3) = (-3) * ((-3) + 1) / 2 ∧
      sum_to_n_c (-3) = -3) :=
  ⟨(C8_sum_to_n_agree 5).1 (by norm_num),
   (C8_sum_to_n_agree (-3)).2 (by norm_num)⟩

theorem sumFuel_eq (fuel : Nat) :
    ∀ n : Int, (n - 1).toNat < fuel → sumFuel fuel n = some (sum_to_n_c n) := by
  induction fuel with
  | zero => intro n h; omega
  | succ fuel ih =>
    intro n h
    by_cases hb : n ≤ 1
    · rw [sumFuel, if_pos hb, sum_to_n_c, if_pos hb]
    · rw [sumFuel, if_neg hb, sum_to_n_c, if_neg hb,
        ih (n - 1) (by omega)]
      rfl

/-- C9: sum_to_n_c terminates on every integer input; the recursion depth is
bounded by the distance from n down to 1, so fuel (n - 1).toNat + 1 always
suffices and the fuel-bounded evaluator returns the same value. -/
theorem C9_sum_to_n_c_terminates (n : Int) :
    sumFuel ((n - 1).toNat + 1) n = some (sum_to_n_c n) :=
  sumFuel_eq ((n - 1).toNat + 1) n (Nat.lt_succ_self _)

/-- Pagination metadata returned by UserService.getAllUsers when both page
and limit are supplied (src/problem5/src/services/user.service.ts). -/
structure PaginationMeta where
  currentPage : Int
  pageSize : Int
  totalCount : Nat
  totalPages : Int
  hasNextPage : Bool
  hasPreviousPage : Bool
  deriving Repr, DecidableEq

/-- Embedding of the pagination branch of UserService.getAllUsers:
page is clamped below by 1, limit is clamped into 1..100, totalPages is
Math.ceil of the exact division totalCount / limit, and the has-next /
has-previous flags compare the sanitized page with totalPages and 1. -/
def getAllUsersPagination (page limit : Int) (totalCount : Nat) : PaginationMeta :=
  let p := max 1 page
  let l := max 1 (min 100 limit)
  let tp : Int := ⌈(totalCount : ℚ) / (l : ℚ)⌉
  { currentPage := p
    pageSize := l
    totalCount := totalCount
    totalPages := tp
    hasNextPage := decide (p < tp)
    hasPreviousPage := decide (1 < p) }

theorem ceil_div_eq_add_sub_one_div (m : Nat) (l : Int) (hl : 0 < l) :
    ⌈(m : ℚ) / (l : ℚ)⌉ = ((m : Int) + l - 1) / l := by
  have hlq : (0 : ℚ) < (l : ℚ) := by exact_mod_cast hl
  set z : Int := ((m : Int) + l - 1) / l with hz
  have key : l * z + ((m : Int) + l - 1) % l = (m : Int) + l - 1 :=
    Int.ediv_add_emod _ _
  have hr0 : 0 ≤ ((m : Int) + l - 1) % l := Int.emod_nonneg _ (by omega)
  have hrl : ((m : Int) + l - 1) % l < l := Int.emod_lt_of_pos _ hl
  set r : Int := ((m : Int) + l - 1) % l with hrdef
  have keyQ : (l : ℚ) * (z : ℚ) + (r : ℚ) = (m : ℚ) + (l : ℚ) - 1 := by
    exact_mod_cast congrArg (fun x : Int => (x : ℚ)) key
  have hr0Q : (0 : ℚ) ≤ (r : ℚ) := by exact_mod_cast hr0
  have hr1Q : (r : ℚ) + 1 ≤ (l : ℚ) := by exact_mod_cast hrl
  rw [Int.ceil_eq_iff]
  constructor
  · rw [lt_div_iff₀ hlq]
    nlinarith [keyQ, hr0Q]
  · rw [div_le_iff₀ hlq]
    nlinarith [keyQ, hr1Q]

/-- C10: for every requested page and limit (arbitrary, possibly out of
range) and every total count, the returned pagination metadata satisfies
currentPage = max 1 page, pageSize = max 1 (min 100 limit) with
1 ≤ pageSize ≤ 100, totalPages = the ceiling of totalCount / pageSize
(equal to the integer formula (totalCount + pageSize - 1) / pageSize),
hasNextPage ↔ currentPage < totalPages, and
hasPreviousPage ↔ currentPage > 1. -/
theorem C10_getAllUsers_pagination (page limit : Int) (totalCount : Nat) :
    (getAllUsersPagination page limit totalCount).currentPage = max 1 page ∧
    (getAllUsersPagination page limit totalCount).pageSize =
      max 1 (min 100 limit) ∧
    1 ≤ (getAllUsersPagination page limit totalCount).pageSize ∧
    (getAllUsersPagination page limit totalCount).pageSize ≤ 100 ∧
    (getAllUsersPagination page limit totalCount).totalPages =
      ⌈(totalCount : ℚ) /
        ((getAllUsersPagination page limit totalCount).pageSize : ℚ)⌉ ∧
    (getAllUsersPagination page limit totalCount).totalPages =
      ((totalCount : Int) +
        (getAllUsersPagination page limit totalCount).pageSize - 1) /
        (getAllUsersPagination page limit totalCount).pageSize ∧
    ((getAllUsersPagination page limit totalCount).hasNextPage = true ↔
      (getAllUsersPagination page limit totalCount).currentPage <
        (getAllUsersPagination page limit totalCount).totalPages) ∧
    ((getAllUsersPagination page limit totalCount).hasPreviousPage = true ↔
      1 < (getAllUsersPagination page limit totalCount).currentPage) := by
  have hl : (0 : Int) < max 1 (min 100 limit) := by
    have : (1 : Int) ≤ max 1 (min 100 limit) := le_max_left _ _
    omega
  refine ⟨rfl, rfl, le_max_left _ _, ?_, rfl, ?_, ?_, ?_⟩
  · show max 1 (min 100 limit) ≤ 100
    have h1 : min 100 limit ≤ 100 := min_le_left _ _
    omega
  · exact ceil_div_eq_add_sub_one_div totalCount _ hl
  · exact decide_eq_true_iff
  · exact decide_eq_true_iff

/-- Modelled from the spec: the Ranking Store's per-participant record (the
design document describes the engine but ships no implementation).  It holds
the current score and the last-applied command sequence number. -/
structure Participant where
  score : Int
  lastSeq : Nat
  deriving Repr, DecidableEq

/-- Modelled from the spec: a ScoreDelta command with participant id
(opaque ids modelled as naturals), signed delta, and per-participant
monotonically increasing command id / sequence number. -/
structure ScoreDelta where
  pid : Nat
  delta : Int
  seq : Nat
  deriving Repr, DecidableEq

/-- Modelled from the spec: outcome of submitting a ScoreDelta to the
combined Idempotency Guard / Ranking Store critical section. -/
inductive ApplyResult where
  | Applied (newScore : Int)
  | RejectedDuplicate
  deriving Repr, DecidableEq

/-- Modelled from the spec: the Ranking Store's participant table, an
association list from participant id to participant record. -/
abbrev Store := List (Nat × Participant)

/-- Lookup of a participant record by id. -/
def lookupP (st : Store) (pid : Nat) : Option Participant :=
  (st.find? (fun e => e.fst == pid)).map Prod.snd

/-- Modelled from the spec: deltas that would take a score below zero are
clamped to zero. -/
def clampScore (s : Int) : Int := max 0 s

/-- Modelled from the spec: the atomic check-and-apply of 4.1/4.3.  A
command is accepted iff its sequence number exceeds the stored last-applied
sequence number; the first command of an unseen participant is always
accepted and registers the participant with initial score 0 plus the
clamped delta.  On accept the score is updated (clamped at zero) and the
sequence number recorded in the same step; otherwise the command is
rejected as a duplicate and the store is unchanged. -/
def applyDelta (st : Store) (c : ScoreDelta) : ApplyResult × Store :=
  match lookupP st c.pid with
  | none =>
      let ns := clampScore c.delta
      (.Applied ns, (c.pid, ⟨ns, c.seq⟩) :: st)
  | some p =>
      if p.lastSeq < c.seq then
        let ns := clampScore (p.score + c.delta)
        (.Applied ns, (c.pid, ⟨ns, c.seq⟩) :: st.filter (fun e => e.fst != c.pid))
      else (.RejectedDuplicate, st)

/-- Replay of a command list from a given store, applying each delta in
order (rejected commands leave the store unchanged). -/
def replayFrom (st : Store) (cmds : List ScoreDelta) : Store :=
  cmds.foldl (fun s c => (applyDelta s c).snd) st

/-- Replay of a command list from the empty store; the spec requires the
Ranking Store to be fully re-derivable this way. -/
def replayAll (cmds : List ScoreDelta) : Store := replayFrom [] cmds

/-- Modelled from the spec: a RankEntry value (score, participant id) used
only for ordering. -/
structure RankEntry where
  score : Int
  pid : Nat
  deriving Repr, DecidableEq

/-- RankEntry view of a stored participant. -/
def entryOf (e : Nat × Participant) : RankEntry := ⟨e.snd.score, e.fst⟩

/-- Modelled from the spec: the leaderboard total order — score descending
and, on equal scores, participant id ascending. -/
def rankLE (a b : RankEntry) : Prop :=
  b.score < a.score ∨ (a.score = b.score ∧ a.pid ≤ b.pid)

instance : DecidableRel rankLE := fun a b => by
  unfold rankLE; infer_instance

instance : IsTotal RankEntry rankLE :=
  ⟨fun a b => by unfold rankLE; omega⟩

instance : IsTrans RankEntry rankLE :=
  ⟨fun a b c => by unfold rankLE; omega⟩

/-- Modelled from the spec: top-K query — all participants sorted by the
leaderboard order, truncated to the first k entries. -/
def topK (st : Store) (k : Nat) : List RankEntry :=
  ((st.map entryOf).insertionSort rankLE).take k

theorem applyDelta_new (st : Store) (c : ScoreDelta)
    (h : lookupP st c.pid = none) :
    applyDelta st c =
      (.Applied (clampScore c.delta),
        (c.pid, ⟨clampScore c.delta, c.seq⟩) :: st) := by
  unfold applyDelta
  simp only [h]

theorem applyDelta_accept (st : Store) (c : ScoreDelta) (p : Participant)
    (h : lookupP st c.pid = some p) (hs : p.lastSeq < c.seq) :
    applyDelta st c =
      (.Applied (clampScore (p.score + c.delta)),
        (c.pid, ⟨clampScore (p.score + c.delta), c.seq⟩) ::
          st.filter (fun e => e.fst != c.pid)) := by
  unfold applyDelta
  simp only [h, if_pos hs]

theorem applyDelta_reject (st : Store) (c : ScoreDelta) (p : Participant)
    (h : lookupP st c.pid = some p) (hs : ¬ p.lastSeq < c.seq) :
    applyDelta st c = (.RejectedDuplicate, st) := by
  unfold applyDelta
  simp only [h, if_neg hs]

theorem replayFrom_preserves_nonneg (cmds : List ScoreDelta) :
    ∀ st : Store, (∀ e ∈ st, 0 ≤ e.snd.score) →
      ∀ e ∈ replayFrom st cmds, 0 ≤ e.snd.score := by
  induction cmds with
  | nil => intro st h e he; exact h e he
  | cons c cmds ih =>
    intro st h e he
    refine ih ((applyDelta st c).snd) ?_ e he
    intro e' he'
    cases hl : lookupP st c.pid with
    | none =>
      rw [applyDelta_new st c hl] at he'
      rcases List.mem_cons.mp he' with rfl | hmem
      · exact le_max_left 0 _
      · exact h e' hmem
    | some p =>
      by_cases hseq : p.lastSeq < c.seq
      · rw [applyDelta_accept st c p hl hseq] at he'
        rcases List.mem_cons.mp he' with rfl | hmem
        · exact le_max_left 0 _
        · exact h e' (List.mem_filter.mp hmem).1
      · rw [applyDelta_reject st c p hl hseq] at he'
        exact h e' he'

/-- C7: every participant score is a non-negative integer in every state
reachable by replaying commands, and an accepted delta that would take the
score below zero yields exactly the clamped score 0 — both for an existing
participant and for a first command with negative delta. -/
theorem C7_scores_nonneg_clamped (cmds : List ScoreDelta) :
    (∀ e ∈ replayAll cmds, 0 ≤ e.snd.score) ∧
    (∀ (st : Store) (c : ScoreDelta) (p : Participant),
      lookupP st c.pid = some p → p.lastSeq < c.seq → p.score + c.delta < 0 →
      (applyDelta st c).fst = .Applied 0) ∧
    (∀ (st : Store) (c : ScoreDelta),
      lookupP st c.pid = none → c.delta < 0 →
      (applyDelta st c).fst = .Applied 0) := by
  refine ⟨?_, ?_, ?_⟩
  · exact replayFrom_preserves_nonneg cmds [] (by intro e he; cases he)
  · intro st c p hl hseq hneg
    rw [applyDelta_accept st c p hl hseq]
    have : clampScore (p.score + c.delta) = 0 := by
      unfold clampScore; omega
    simp [this]
  · intro st c hl hneg
    rw [applyDelta_new st c hl]
    have : clampScore c.delta = 0 := by
      unfold clampScore; omega
    simp [this]

/-- Closed instance of C7: a participant at score 3 receiving delta -5 on a
fresh sequence number ends at exactly 0. -/
theorem C7_scores_nonneg_clamped_witness :
    (applyDelta [(1, ⟨3, 1⟩)] ⟨1, -5, 2⟩).fst = .Applied 0 :=
  (C7_scores_nonneg_clamped []).2.1 [(1, ⟨3, 1⟩)] ⟨1, -5, 2⟩ ⟨3, 1⟩
    (by decide) (by decide) (by decide)

theorem find?_filter_of_imp {α : Type} (l : List α) (p q : α → Bool)
    (h : ∀ a, p a = true → q a = true) :
    (l.filter q).find? p = l.find? p := by
  induction l with
  | nil => rfl
  | cons a l ih =>
    by_cases hq : q a = true
    · rw [List.filter_cons_of_pos hq]
      by_cases hp : p a = true
      · rw [List.find?_cons_of_pos _ hp, List.find?_cons_of_pos _ hp]
      · rw [List.find?_cons_of_neg _ (by simpa using hp),
          List.find?_cons_of_neg _ (by simpa using hp)]
        exact ih
    · have hp : ¬ p a = true := fun hpa => hq (h a hpa)
      rw [List.filter_cons_of_neg (by simpa using hq),
        List.find?_cons_of_neg _ (by simpa using hp)]
      exact ih

theorem lookupP_cons_self (st : Store) (pid : Nat) (p : Participant) :
    lookupP ((pid, p) :: st) pid = some p := by
  unfold lookupP
  rw [List.find?_cons_of_pos _ (by simp)]
  rfl

theorem lookupP_cons_ne (st : Store) (pid q : Nat) (p : Participant)
    (h : q ≠ pid) : lookupP ((q, p) :: st) pid = lookupP st pid := by
  unfold lookupP
  rw [List.find?_cons_of_neg _ (by simpa using h)]

theorem lookupP_filter_ne (st : Store) (pid q : Nat) (h : pid ≠ q) :
    lookupP (st.filter (fun e => e.fst != q)) pid = lookupP st pid := by
  unfold lookupP
  rw [find?_filter_of_imp]
  intro a ha
  simp only [beq_iff_eq] at ha
  simp [ha, h]

theorem lastSeq_mono_step (st : Store) (c : ScoreDelta) (pid : Nat)
    (p : Participant) (hl : lookupP st pid = some p) :
    ∃ p', lookupP (applyDelta st c).snd pid = some p' ∧
      p.lastSeq ≤ p'.lastSeq := by
  cases hc : lookupP st c.pid with
  | none =>
    rw [applyDelta_new st c hc]
    have hne : c.pid ≠ pid := by
      intro h; rw [h] at hc; rw [hc] at hl; cases hl
    exact ⟨p, by rw [lookupP_cons_ne st pid c.pid _ hne]; exact hl, le_refl _⟩
  | some q =>
    by_cases hseq : q.lastSeq < c.seq
    · rw [applyDelta_accept st c q hc hseq]
      by_cases hpid : pid = c.pid
      · subst hpid
        have hpq : p = q := by rw [hl] at hc; injection hc
        refine ⟨⟨clampScore (q.score + c.delta), c.seq⟩,
          lookupP_cons_self _ _ _, ?_⟩
        subst hpq
        show p.lastSeq ≤ c.seq
        omega
      · refine ⟨p, ?_, le_refl _⟩
        rw [lookupP_cons_ne _ pid c.pid _ (fun h => hpid h.symm),
          lookupP_filter_ne st pid c.pid hpid]
        exact hl
    · rw [applyDelta_reject st c q hc hseq]
      exact ⟨p, hl, le_refl _⟩

theorem lastSeq_mono_run (rest : List ScoreDelta) :
    ∀ (st : Store) (pid : Nat) (p : Participant),
      lookupP st pid = some p →
      ∃ p', lookupP (replayFrom st rest) pid = some p' ∧
        p.lastSeq ≤ p'.lastSeq := by
  induction rest with
  | nil => intro st pid p hl; exact ⟨p, hl, le_refl _⟩
  | cons c rest ih =>
    intro st pid p hl
    obtain ⟨p1, hl1, hle1⟩ := lastSeq_mono_step st c pid p hl
    obtain ⟨p2, hl2, hle2⟩ := ih (applyDelta st c).snd pid p1 hl1
    exact ⟨p2, hl2, le_trans hle1 hle2⟩

/-- C2: a ScoreDelta is accepted iff its sequence number is strictly greater
than the stored last-applied sequence number (a first command for an unseen
participant is always accepted, the lookup hypothesis being vacuous); and
once a command has been accepted, resubmitting the same command after any
further command sequence is rejected as a duplicate — Applied happens
exactly once, RejectedDuplicate on every subsequent attempt. -/
theorem C2_idempotency_guard (st : Store) (c : ScoreDelta) :
    ((∃ s, (applyDelta st c).fst = .Applied s) ↔
      (∀ p, lookupP st c.pid = some p → p.lastSeq < c.seq)) ∧
    (∀ (s : Int) (rest : List ScoreDelta),
      (applyDelta st c).fst = .Applied s →
      (applyDelta (replayFrom (applyDelta st c).snd rest) c).fst =
        .RejectedDuplicate) := by
  constructor
  · constructor
    · rintro ⟨s, hs⟩ p hp
      by_contra hseq
      rw [applyDelta_reject st c p hp hseq] at hs
      cases hs
    · intro h
      cases hc : lookupP st c.pid with
      | none => exact ⟨clampScore c.delta, by rw [applyDelta_new st c hc]⟩
      | some p =>
        exact ⟨clampScore (p.score + c.delta),
          by rw [applyDelta_accept st c p hc (h p hc)]⟩
  · intro s rest hs
    have hrec : lookupP (applyDelta st c).snd c.pid =
        some ⟨(match (applyDelta st c).fst with
                | .Applied v => v
                | .RejectedDuplicate => 0), c.seq⟩ := by
      cases hc : lookupP st c.pid with
      | none =>
        rw [applyDelta_new st c hc, lookupP_cons_self]
      | some p =>
        by_cases hseq : p.lastSeq < c.seq
        · rw [applyDelta_accept st c p hc hseq, lookupP_cons_self]
        · rw [applyDelta_reject st c p hc hseq] at hs
          cases hs
    obtain ⟨p', hl', hle'⟩ :=
      lastSeq_mono_run rest (applyDelta st c).snd c.pid _ hrec
    have hge : ¬ p'.lastSeq < c.seq := by
      simp only at hle'
      omega
    exact congrArg Prod.fst
      (applyDelta_reject _ c p' hl' hge)

/-- Closed instance of C2: the command (pid 1, seq 1) is accepted on the
empty store and rejected as a duplicate when resubmitted after a further
command for another participant. -/
theorem C2_idempotency_guard_witness :
    (applyDelta (replayFrom (applyDelta [] ⟨1, 5, 1⟩).snd [⟨2, 3, 1⟩])
        ⟨1, 5, 1⟩).fst = .RejectedDuplicate :=
  (C2_idempotency_guard [] ⟨1, 5, 1⟩).2 5 [⟨2, 3, 1⟩] (by decide)

/-- C1: after replaying any command sequence, topK n for every n at least
the number of stored participants returns exactly the whole participant
table viewed as rank entries (a permutation of it), ordered by score
descending with ties broken by ascending participant id. -/
theorem C1_topK_complete_sorted (cmds : List ScoreDelta) (n : Nat)
    (hn : (replayAll cmds).length ≤ n) :
    (topK (replayAll cmds) n).Perm ((replayAll cmds).map entryOf) ∧
    List.Sorted rankLE (topK (replayAll cmds) n) := by
  constructor
  · unfold topK
    rw [List.take_of_length_le]
    · exact List.perm_insertionSort rankLE _
    · rw [List.length_insertionSort, List.length_map]
      exact hn
  · exact List.Pairwise.sublist (List.take_sublist _ _)
      (List.sorted_insertionSort rankLE _)

/-- Closed instance of C1: three deltas (one of them a later command for an
already-seen participant), queried with n = 5 ≥ 2 participants. -/
theorem C1_topK_complete_sorted_witness :
    (topK (replayAll [⟨1, 7, 1⟩, ⟨2, 9, 1⟩, ⟨1, 3, 2⟩]) 5).Perm
      ((replayAll [⟨1, 7, 1⟩, ⟨2, 9, 1⟩, ⟨1, 3, 2⟩]).map entryOf) ∧
    List.Sorted rankLE (topK (replayAll [⟨1, 7, 1⟩, ⟨2, 9, 1⟩, ⟨1, 3, 2⟩]) 5) :=
  C1_topK_complete_sorted [⟨1, 7, 1⟩, ⟨2, 9, 1⟩, ⟨1, 3, 2⟩] 5 (by decide)

/-- Modelled from the spec: the boundary score — the score of the Kth entry
of the current top-K, when it exists. -/
def kthScore (st : Store) (k : Nat) : Option Int :=
  ((topK st k)[k - 1]?).map RankEntry.score

/-- Modelled from the spec: membership of a participant in the current
top-K. -/
def inTopK (st : Store) (k pid : Nat) : Bool :=
  (topK st k).any (fun e => e.pid == pid)

/-- Modelled from the spec and the updateScoreboard sketch of the design
document: a ChangeEvent is emitted iff the updated participant was in the
top-K before the update or is in the top-K after it. -/
def notifierEmits (stBefore stAfter : Store) (k pid : Nat) : Bool :=
  inTopK stBefore k pid || inTopK stAfter k pid

theorem rankLE_score (a b : RankEntry) (h : rankLE a b) : b.score ≤ a.score := by
  unfold rankLE at h
  omega

theorem boundary_le_topK_score (st : Store) (k : Nat) (b : Int)
    (hb : kthScore st k = some b) :
    ∀ e ∈ topK st k, b ≤ e.score := by
  intro e he
  unfold kthScore at hb
  cases hq : (topK st k)[k - 1]? with
  | none => rw [hq] at hb; cases hb
  | some ek =>
    rw [hq] at hb
    have hbek : ek.score = b := by
      injection hb with h
    rw [List.getElem?_eq_some] at hq
    obtain ⟨hlt, hget⟩ := hq
    have hsorted : List.Sorted rankLE (topK st k) :=
      List.Pairwise.sublist (List.take_sublist _ _)
        (List.sorted_insertionSort rankLE _)
    have hlen : (topK st k).length ≤ k := by
      unfold topK
      exact List.length_take_le _ _
    obtain ⟨i, hi⟩ := List.mem_iff_get.mp he
    have hik : (i : Nat) ≤ k - 1 := by omega
    rcases lt_or_eq_of_le hik with hilt | hieq
    · have hr : rankLE ((topK st k).get i)
          ((topK st k).get ⟨k - 1, hlt⟩) :=
        List.Sorted.rel_get_of_lt hsorted (by exact hilt)
      have : ((topK st k).get ⟨k - 1, hlt⟩) = ek := hget
      rw [this, hi] at hr
      rw [← hbek]
      exact rankLE_score _ _ hr
    · have : (topK st k).get i = ek := by
        rw [← hget]
        congr 1
        exact Fin.ext hieq
      rw [hi] at this
      rw [← hbek, this]

theorem not_inTopK_of_low (st : Store) (k pid : Nat) (b : Int)
    (hb : kthScore st k = some b)
    (hlow : ∀ e ∈ st, e.fst = pid → e.snd.score < b) :
    inTopK st k pid = false := by
  by_contra h
  have hany : (topK st k).any (fun e => e.pid == pid) = true := by
    unfold inTopK at h
    revert h
    cases (topK st k).any (fun e => e.pid == pid) <;> simp
  obtain ⟨e, he, hpe⟩ := List.any_eq_true.mp hany
  have hpid : e.pid = pid := by simpa using hpe
  have hle : b ≤ e.score := boundary_le_topK_score st k b hb e he
  have hmem : e ∈ (replayAll []).map entryOf ∨ e ∈ (st.map entryOf) := by
    right
    have h1 : e ∈ (st.map entryOf).insertionSort rankLE :=
      List.mem_of_mem_take he
    exact (List.mem_insertionSort rankLE).mp h1
  rcases hmem with h0 | hmem
  · simp [replayAll, replayFrom] at h0
  · obtain ⟨x, hx, hex⟩ := List.mem_map.mp hmem
    have hscore : x.snd.score = e.score := by rw [← hex]; rfl
    have hxpid : x.fst = pid := by rw [← hpid, ← hex]; rfl
    have := hlow x hx hxpid
    omega

/-- C3: if the updated participant's score is below the boundary (Kth)
score both before and after an update, the Change Notifier emits nothing;
an Unranked to Unranked update never produces an emission. -/
theorem C3_no_event_below_boundary (st : Store) (c : ScoreDelta)
    (k : Nat) (b b2 : Int)
    (hb : kthScore st k = some b)
    (hb2 : kthScore (applyDelta st c).snd k = some b2)
    (hlow : ∀ e ∈ st, e.fst = c.pid → e.snd.score < b)
    (hlow2 : ∀ e ∈ (applyDelta st c).snd, e.fst = c.pid → e.snd.score < b2) :
    notifierEmits st (applyDelta st c).snd k c.pid = false := by
  unfold notifierEmits
  rw [not_inTopK_of_low st k c.pid b hb hlow,
    not_inTopK_of_low _ k c.pid b2 hb2 hlow2]
  rfl

/-- Closed instance of C3: with K = 2 and scores 100, 90, 10, participant 3
gaining +5 stays below the boundary score 90 and nothing is emitted. -/
theorem C3_no_event_below_boundary_witness :
    notifierEmits [(1, ⟨100, 1⟩), (2, ⟨90, 1⟩), (3, ⟨10, 1⟩)]
      (applyDelta [(1, ⟨100, 1⟩), (2, ⟨90, 1⟩), (3, ⟨10, 1⟩)] ⟨3, 5, 2⟩).snd
      2 3 = false :=
  C3_no_event_below_boundary [(1, ⟨100, 1⟩), (2, ⟨90, 1⟩), (3, ⟨10, 1⟩)]
    ⟨3, 5, 2⟩ 2 90 90 (by decide) (by decide) (by decide) (by decide)

/-- Modelled from the spec: a ChangeEvent published to the Fan-out Bus,
carrying the generation counter and the full current top-K snapshot. -/
structure ChangeEvent where
  generation : Nat
  board : List RankEntry
  deriving Repr, DecidableEq

/-- Modelled from the spec: the engine state threaded through command
processing — the Ranking Store, the generation counter, and the events
published so far. -/
structure EngineState where
  store : Store
  gen : Nat
  events : List ChangeEvent
  deriving Repr, DecidableEq

/-- Modelled from the spec: processing one inbound command — apply the
delta, and when the Change Notifier reports an observable change, stamp the
next generation and publish the full current top-K snapshot. -/
def engineStep (k : Nat) (es : EngineState) (c : ScoreDelta) : EngineState :=
  let r := applyDelta es.store c
  match r.fst with
  | .RejectedDuplicate => { es with store := r.snd }
  | .Applied _ =>
      if notifierEmits es.store r.snd k c.pid then
        { store := r.snd, gen := es.gen + 1,
          events := es.events ++ [⟨es.gen + 1, topK r.snd k⟩] }
      else { es with store := r.snd }

/-- Engine run from the initial empty state. -/
def runEngine (k : Nat) (cmds : List ScoreDelta) : EngineState :=
  cmds.foldl (engineStep k) ⟨[], 0, []⟩

theorem engineStep_cases (k : Nat) (es : EngineState) (c : ScoreDelta) :
    engineStep k es c = { es with store := (applyDelta es.store c).snd } ∨
    engineStep k es c =
      { store := (applyDelta es.store c).snd, gen := es.gen + 1,
        events := es.events ++
          [⟨es.gen + 1, topK (applyDelta es.store c).snd k⟩] } := by
  rcases had : applyDelta es.store c with ⟨res, st2⟩
  unfold engineStep
  rw [had]
  cases res with
  | RejectedDuplicate => left; rfl
  | Applied s =>
      by_cases hem : notifierEmits es.store st2 k c.pid = true
      · right
        show (if notifierEmits es.store st2 k c.pid = true then _ else _) = _
        rw [if_pos hem]
      · left
        show (if notifierEmits es.store st2 k c.pid = true then _ else _) = _
        rw [if_neg hem]

theorem engine_run_aux (k : Nat) (cmds : List ScoreDelta) :
    ∀ es : EngineState,
      (∀ e ∈ es.events, e.generation ≤ es.gen) →
      List.Pairwise (fun a b => a.generation < b.generation) es.events →
      (∀ e ∈ (cmds.foldl (engineStep k) es).events,
        e.generation ≤ (cmds.foldl (engineStep k) es).gen) ∧
      List.Pairwise (fun a b => a.generation < b.generation)
        (cmds.foldl (engineStep k) es).events ∧
      (∀ e ∈ (cmds.foldl (engineStep k) es).events,
        e ∈ es.events ∨ ∃ pfx, List.IsPrefix pfx cmds ∧
          e.board = topK (replayFrom es.store pfx) k) := by
  induction cmds with
  | nil =>
    intro es h1 h2
    exact ⟨h1, h2, fun e he => Or.inl he⟩
  | cons c cmds ih =>
    intro es h1 h2
    rw [List.foldl_cons]
    rcases engineStep_cases k es c with hes | hes
    · obtain ⟨g1, g2, g3⟩ := ih (engineStep k es c)
        (by rw [hes]; exact h1) (by rw [hes]; exact h2)
      refine ⟨g1, g2, ?_⟩
      intro e he
      rcases g3 e he with hmem | ⟨pfx, hp, hb⟩
      · rw [hes] at hmem
        exact Or.inl hmem
      · right
        obtain ⟨t, ht⟩ := hp
        refine ⟨c :: pfx, ⟨t, by rw [List.cons_append, ht]⟩, ?_⟩
        rw [hb, hes]
        rfl
    · have hpre1 : ∀ e ∈ (engineStep k es c).events,
          e.generation ≤ (engineStep k es c).gen := by
        rw [hes]
        intro e he
        rcases List.mem_append.mp he with hold | hnew
        · exact Nat.le_succ_of_le (h1 e hold)
        · have : e = ⟨es.gen + 1, topK (applyDelta es.store c).snd k⟩ := by
            simpa using hnew
          rw [this]
      have hpre2 : List.Pairwise (fun a b => a.generation < b.generation)
          (engineStep k es c).events := by
        rw [hes]
        rw [List.pairwise_append]
        refine ⟨h2, List.pairwise_singleton _ _, ?_⟩
        intro a ha b hb
        have hb1 : b = ⟨es.gen + 1, topK (applyDelta es.store c).snd k⟩ := by
          simpa using hb
        rw [hb1]
        exact Nat.lt_succ_of_le (h1 a ha)
      obtain ⟨g1, g2, g3⟩ := ih (engineStep k es c) hpre1 hpre2
      refine ⟨g1, g2, ?_⟩
      intro e he
      rcases g3 e he with hmem | ⟨pfx, hp, hb⟩
      · rw [hes] at hmem
        rcases List.mem_append.mp hmem with hold | hnew
        · exact Or.inl hold
        · right
          have : e = ⟨es.gen + 1, topK (applyDelta es.store c).snd k⟩ := by
            simpa using hnew
          refine ⟨[c], ⟨cmds, rfl⟩, ?_⟩
          rw [this]
          rfl
      · right
        obtain ⟨t, ht⟩ := hp
        refine ⟨c :: pfx, ⟨t, by rw [List.cons_append, ht]⟩, ?_⟩
        rw [hb, hes]
        rfl

/-- C4: in every run of the engine, the published event stream carries
strictly increasing generation numbers (so no consumer reading it in order
ever sees generation g after g2 > g), and every event carries the full
current top-K snapshot of the store reached by some prefix of the command
sequence, not a diff. -/
theorem C4_generations_strictly_increase (k : Nat) (cmds : List ScoreDelta) :
    List.Pairwise (fun a b => a.generation < b.generation)
      (runEngine k cmds).events ∧
    (∀ e ∈ (runEngine k cmds).events,
      ∃ pfx, List.IsPrefix pfx cmds ∧ e.board = topK (replayAll pfx) k) := by
  have h := engine_run_aux k cmds ⟨[], 0, []⟩
    (by intro e he; cases he) List.Pairwise.nil
  refine ⟨h.2.1, ?_⟩
  intro e he
  rcases h.2.2 e he with h0 | ⟨pfx, hp, hb⟩
  · cases h0
  · exact ⟨pfx, hp, hb⟩

/-- Closed instance of C4 at K = 1 with two commands, one of which publishes
an event. -/
theorem C4_generations_strictly_increase_witness :
    List.Pairwise (fun a b => a.generation < b.generation)
      (runEngine 1 [⟨1, 5, 1⟩, ⟨1, 4, 2⟩]).events ∧
    (∀ e ∈ (runEngine 1 [⟨1, 5, 1⟩, ⟨1, 4, 2⟩]).events,
      ∃ pfx, List.IsPrefix pfx [(⟨1, 5, 1⟩ : ScoreDelta), ⟨1, 4, 2⟩] ∧
        e.board = topK (replayAll pfx) 1) :=
  C4_generations_strictly_increase 1 [⟨1, 5, 1⟩, ⟨1, 4, 2⟩]

/-- Modelled from the spec: a published Snapshot — the top-K board, the
generation counter stamped on it, and its creation time. -/
structure Snapshot where
  board : List RankEntry
  generation : Nat
  createdAt : Nat
  deriving Repr, DecidableEq

/-- Modelled from the spec: the Snapshot Cache holds at most one cached
snapshot plus the generation counter used to stamp rebuilds. -/
structure CacheState where
  cached : Option Snapshot
  gen : Nat
  deriving Repr, DecidableEq

/-- Modelled from the spec: invalidation clears the cached snapshot, so the
next read rebuilds synchronously from the Ranking Store. -/
def cacheInvalidate (cs : CacheState) : CacheState := { cs with cached := none }

/-- Modelled from the spec: get() serves the cached snapshot while it is
fresh (now - createdAt < TTL and no invalidation since creation); otherwise
it rebuilds synchronously from RankingStore.topK(K), stamps the next
generation, and replaces the cache entry. -/
def cacheGet (cs : CacheState) (st : Store) (k ttl now : Nat) :
    Snapshot × CacheState :=
  match cs.cached with
  | some s =>
      if now - s.createdAt < ttl then (s, cs)
      else (⟨topK st k, cs.gen + 1, now⟩,
        ⟨some ⟨topK st k, cs.gen + 1, now⟩, cs.gen + 1⟩)
  | none =>
      (⟨topK st k, cs.gen + 1, now⟩,
        ⟨some ⟨topK st k, cs.gen + 1, now⟩, cs.gen + 1⟩)

/-- C5: a cached snapshot younger than the TTL (and not invalidated, since
invalidation clears the cache) is returned unchanged with the cache state
untouched; an expired or missing snapshot forces a synchronous rebuild from
topK that stamps the next generation and replaces the cache entry; and for
positive TTL the snapshot served is never older than the TTL. -/
theorem C5_snapshot_cache_ttl (cs : CacheState) (st : Store)
    (k ttl now : Nat) :
    (∀ s, cs.cached = some s → now - s.createdAt < ttl →
      cacheGet cs st k ttl now = (s, cs)) ∧
    (∀ s, cs.cached = some s → ¬ now - s.createdAt < ttl →
      cacheGet cs st k ttl now =
        (⟨topK st k, cs.gen + 1, now⟩,
          ⟨some ⟨topK st k, cs.gen + 1, now⟩, cs.gen + 1⟩)) ∧
    (cs.cached = none →
      cacheGet cs st k ttl now =
        (⟨topK st k, cs.gen + 1, now⟩,
          ⟨some ⟨topK st k, cs.gen + 1, now⟩, cs.gen + 1⟩)) ∧
    (0 < ttl →
      now - (cacheGet cs st k ttl now).fst.createdAt < ttl) := by
  refine ⟨?_, ?_, ?_, ?_⟩
  · intro s hs hfresh
    unfold cacheGet
    simp only [hs, if_pos hfresh]
  · intro s hs hstale
    unfold cacheGet
    simp only [hs, if_neg hstale]
  · intro hnone
    unfold cacheGet
    simp only [hnone]
  · intro httl
    unfold cacheGet
    cases hs : cs.cached with
    | none => simpa using httl
    | some s =>
      by_cases hfresh : now - s.createdAt < ttl
      · simpa [if_pos hfresh] using hfresh
      · simpa [if_neg hfresh] using httl

/-- Closed instance of C5: a snapshot created at time 10 read at time 12
with TTL 5 is served unchanged from the cache. -/
theorem C5_snapshot_cache_ttl_witness :
    cacheGet ⟨some ⟨[], 1, 10⟩, 1⟩ [] 2 5 12 = (⟨[], 1, 10⟩, ⟨some ⟨[], 1, 10⟩, 1⟩) :=
  (C5_snapshot_cache_ttl ⟨some ⟨[], 1, 10⟩, 1⟩ [] 2 5 12).1
    ⟨[], 1, 10⟩ rfl (by decide)

/-- Per-participant rate-limiter counter, following the Redis sketch of the
design document: a counter keyed by the participant whose key expires a
fixed window after it was first set. -/
structure RateState where
  windowStart : Nat
  count : Nat
  deriving Repr, DecidableEq

/-- Embedding of the Redis rate-limit sketch of the design document:
incr creates the key with count 1 and an expiry one window ahead when it is
absent or expired; otherwise it increments, and the call is allowed only
while the count stays within the limit. -/
def rlAllow (limit window : Nat) (st : Option RateState) (now : Nat) :
    Bool × RateState :=
  match st with
  | none => (true, ⟨now, 1⟩)
  | some r =>
      if r.windowStart + window ≤ now then (true, ⟨now, 1⟩)
      else (decide (r.count + 1 ≤ limit), ⟨r.windowStart, r.count + 1⟩)

/-- Sequence of rate-limiter decisions for a list of call timestamps. -/
def rlRun (limit window : Nat) (st : Option RateState) :
    List Nat → List Bool × Option RateState
  | [] => ([], st)
  | t :: ts =>
      let r := rlAllow limit window st t
      let rest := rlRun limit window (some r.snd) ts
      (r.fst :: rest.fst, rest.snd)

theorem rlAllow_some (limit window t0 cnt now : Nat) :
    rlAllow limit window (some ⟨t0, cnt⟩) now =
      if t0 + window ≤ now then (true, ⟨now, 1⟩)
      else (decide (cnt + 1 ≤ limit), ⟨t0, cnt + 1⟩) := rfl

theorem rlRun_cons (limit window : Nat) (st : Option RateState)
    (t : Nat) (ts : List Nat) :
    rlRun limit window st (t :: ts) =
      ((rlAllow limit window st t).fst ::
        (rlRun limit window (some (rlAllow limit window st t).snd) ts).fst,
        (rlRun limit window (some (rlAllow limit window st t).snd) ts).snd) :=
  rfl

theorem rlRun_in_window (limit window : Nat) (ts : List Nat) :
    ∀ (t0 cnt : Nat), (∀ t ∈ ts, t < t0 + window) →
      rlRun limit window (some ⟨t0, cnt⟩) ts =
        ((List.range ts.length).map (fun i => decide (cnt + 1 + i ≤ limit)),
          some ⟨t0, cnt + ts.length⟩) := by
  induction ts with
  | nil => intro t0 cnt h; rfl
  | cons t ts ih =>
    intro t0 cnt h
    have ht : t < t0 + window := h t (List.mem_cons_self t ts)
    have hstep : rlAllow limit window (some ⟨t0, cnt⟩) t =
        (decide (cnt + 1 ≤ limit), ⟨t0, cnt + 1⟩) := by
      rw [rlAllow_some, if_neg (by omega)]
    have hrest := ih t0 (cnt + 1) (fun x hx => h x (List.mem_cons_of_mem t hx))
    rw [rlRun_cons, hstep, hrest]
    refine congrArg₂ Prod.mk ?_ ?_
    · rw [List.length_cons, List.range_succ_eq_map, List.map_cons,
        List.map_map]
      refine congrArg₂ List.cons (by norm_num) ?_
      refine List.map_congr_left ?_
      intro i hi
      simp only [Function.comp]
      rw [decide_eq_decide]
      omega
    · refine congrArg some ?_
      refine congrArg (RateState.mk t0) ?_
      rw [List.length_cons]
      omega

/-- C6: with limit 10 per 60-second window, any 11 consecutive commands for
one participant whose later 10 timestamps all fall strictly inside the
60-second window opened by the first command t0 produce ten allowed calls
followed by a rejection of the 11th; and a further command arriving more
than 60 seconds after the window start is allowed again. -/
theorem C6_rate_limiter_window (t0 now : Nat) (ts : List Nat)
    (hlen : ts.length = 10) (hwin : ∀ t ∈ ts, t < t0 + 60) :
    (rlRun 10 60 none (t0 :: ts)).fst =
      List.replicate 10 true ++ [false] ∧
    (t0 + 60 < now →
      (rlAllow 10 60 (rlRun 10 60 none (t0 :: ts)).snd now).fst = true) := by
  have hrun : rlRun 10 60 none (t0 :: ts) =
      (true :: ((List.range ts.length).map
        (fun i => decide (1 + 1 + i ≤ 10))),
        some ⟨t0, 1 + ts.length⟩) := by
    have h1 : rlRun 10 60 none (t0 :: ts) =
        (true :: (rlRun 10 60 (some ⟨t0, 1⟩) ts).fst,
          (rlRun 10 60 (some ⟨t0, 1⟩) ts).snd) := rlRun_cons 10 60 none t0 ts
    rw [h1, rlRun_in_window 10 60 ts t0 1 hwin]
  constructor
  · rw [hrun, hlen]
    show true :: ((List.range 10).map (fun i => decide (1 + 1 + i ≤ 10))) =
      List.replicate 10 true ++ [false]
    decide
  · intro hnow
    have h2 : (rlRun 10 60 none (t0 :: ts)).snd = some ⟨t0, 1 + ts.length⟩ := by
      rw [hrun]
    rw [h2, rlAllow_some, if_pos (by omega)]

/-- Closed instance of C6: eleven calls at time 0 give ten allowed calls
then a rejection, and a call at time 61 is allowed again. -/
theorem C6_rate_limiter_window_witness :
    (rlRun 10 60 none (0 :: List.replicate 10 0)).fst =
      List.replicate 10 true ++ [false] ∧
    (0 + 60 < 61 →
      (rlAllow 10 60 (rlRun 10 60 none (0 :: List.replicate 10 0)).snd
        61).fst = true) :=
  C6_rate_limiter_window 0 61 (List.replicate 10 0) (by decide) (by decide)
